import Mathlib

/-!
# Verification of the t-digest implementation (`pkg/tdigest/tdigest.go`)

A shallow embedding of the Go source in Lean 4.  Go `float64` values are
modelled as rationals (`ℚ`), so all arithmetic identities of the algorithm
hold exactly; `math.NaN()` results are modelled by `Option.none`.  Go slice
indexing, which panics when out of bounds, is modelled by `List.getElem?`
combined with `Option`-valued functions: a `none` result of `add` marks a
run-time panic of the Go code.  In-place mutation through centroid pointers
is modelled by functional update (`List.set`) of the centroid store.
-/

/-- Constant `binarySearchThreshold` from the source: when iterating sequentially
through the centroids becomes faster than binary search. -/
def binarySearchThreshold : ℕ := 32

/-- A centroid: `mean`/`count` plus the two cache fields used by the
capacity policy (`maxCount`, `nCentroids`). -/
structure centroid where
  mean : ℚ
  count : ℚ
  maxCount : ℚ
  nCentroids : ℕ
deriving DecidableEq, Repr

instance : Inhabited centroid := ⟨⟨0, 0, 0, 0⟩⟩

namespace centroid

/-- Method `inc` increments the centroid with `val` and updates the mean
(`c.count++; c.mean += (val - c.mean) / c.count`). -/
def inc (c : centroid) (val : ℚ) : centroid :=
  { c with count := c.count + 1, mean := c.mean + (val - c.mean) / (c.count + 1) }

end centroid

/-- The digest state: the fields of Go's `TDigest` struct. -/
structure TDigest where
  centroids : List centroid
  compression : ℚ
  count : ℚ
  nCentroids : ℕ
  p5Centroid : ℕ
  p95Centroid : ℕ
  appendLower : Bool
deriving DecidableEq, Repr

/-- Constructor `New(compression)` constructs an empty digest; all other fields are the
Go zero values. -/
def New (compression : ℚ) : TDigest :=
  { centroids := [], compression := compression, count := 0, nCentroids := 0,
    p5Centroid := 0, p95Centroid := 0, appendLower := false }

namespace TDigest

/-- Index of the first centroid of a list whose mean is strictly above
`val`; models the early-return condition of the linear scan
`for i, c := range d.centroids[left+1:] { if val < c.mean { return left + i } }`. -/
def firstAbove (val : ℚ) : List centroid → Option ℕ
  | [] => none
  | c :: rest => if val < c.mean then some 0 else (firstAbove val rest).map (· + 1)

/-- The binary-search loop of `nearest`.  Returns `Sum.inl i` for the early
returns inside the loop, `Sum.inr (left, right)` when the loop exits to the
linear scan, and `none` where the Go code would index out of bounds. -/
def nearLoop (cs : List centroid) (val : ℚ) (left right : ℕ) : Option (ℕ ⊕ ℕ × ℕ) :=
  if 32 < right - left then
    -- middle := left + diff/2 (rounded down)
    let middle := left + (right - left) / 2
    match cs[middle]? with
    | none => none
    | some cm =>
      if cm.mean < val then
        -- val is to the right of the middle considered centroid.
        match cs[middle + 1]? with
        | none => none
        | some cm1 =>
          if val < cm1.mean then some (Sum.inl middle)
          else nearLoop cs val (middle + 1) right
      else
        -- val is to the left of the middle considered centroid.
        match cs[middle - 1]? with
        | none => none
        | some cm0 =>
          if cm0.mean < val then some (Sum.inl (middle - 1))
          else nearLoop cs val left middle
  else some (Sum.inr (left, right))
termination_by right - left
decreasing_by
  · omega
  · omega

/-- The tail of `nearest` after the search window `(left, right)` is fixed:
the binary-search loop followed by the linear fallback
(`return left + i` on the first centroid above `val`, else `return right - 1`).
The result is an `ℤ` because `right - 1` can be `-1` in Go. -/
def nearestFrom (d : TDigest) (val : ℚ) (left right : ℕ) : Option ℤ :=
  match nearLoop d.centroids val left right with
  | none => none
  | some (Sum.inl i) => some (i : ℤ)
  | some (Sum.inr (l, r)) =>
    match firstAbove val (d.centroids.drop (l + 1)) with
    | some i => some ((l + i : ℕ) : ℤ)
    | none => some ((r : ℤ) - 1)

/-- Function `nearest` returns the index such that the returned index and its
immediate successor are indices of the two closest centroids.  The initial
window `(0, d.nCentroids)` is narrowed using the cached `p5Centroid` /
`p95Centroid` indices exactly as in the source. -/
def nearest (d : TDigest) (val : ℚ) : Option ℤ :=
  match d.centroids[d.p5Centroid]? with
  | none => none
  | some c5 =>
    if c5.mean < val then
      match d.centroids[d.p95Centroid]? with
      | none => none
      | some c95 =>
        nearestFrom d val d.p5Centroid
          (if val < c95.mean then d.p95Centroid + 1 else d.nCentroids)
    else
      nearestFrom d val 0 d.p5Centroid

/-- Total weight of a list of centroids. -/
def sumCounts (cs : List centroid) : ℚ := (cs.map centroid.count).sum

/-- Function `quantileOf` returns the approximate quantile of centroid `idx`,
accumulating counts from the nearer end of the store.  The read of
`d.centroids[idx]` is total here (`getD`); every call site passes a valid
index. -/
def quantileOf (d : TDigest) (idx : ℕ) : ℚ :=
  if d.nCentroids / 2 < idx then
    1 - ((d.centroids.getD idx default).count / 2 + sumCounts (d.centroids.drop (idx + 1))) / d.count
  else
    ((d.centroids.getD idx default).count / 2 + sumCounts (d.centroids.take idx)) / d.count

/-- Function `hasRoom`: recompute the weight limit of centroid `idx`, update the
cache fields of `c`, and report whether `c.count < c.maxCount`.  Returns
the updated centroid since Go mutates it through a pointer. -/
def hasRoom (d : TDigest) (idx : ℕ) (c : centroid) : Bool × centroid :=
  let ptile := d.quantileOf idx
  let mc := 4 * d.compression * ptile * (1 - ptile) * (d.nCentroids : ℚ)
  (decide (c.count < mc), { c with maxCount := mc, nCentroids := d.nCentroids })

/-- The cached capacity check of `add`:
`(c.count < c.maxCount) || (c.nCentroids != d.nCentroids && d.hasRoom(idx, c))`,
with the short-circuit semantics of Go's `||` and `&&`. -/
def hasRoomCheck (d : TDigest) (idx : ℕ) (c : centroid) : Bool × centroid :=
  if c.count < c.maxCount then (true, c)
  else if c.nCentroids ≠ d.nCentroids then d.hasRoom idx c
  else (false, c)

/-- Function `addCentroid` adds a new centroid at index `idx` with mean `mean`
(Go: append + shift); once the digest holds at least 3 centroids the
`p5Centroid`/`p95Centroid` hints are recomputed. -/
def addCentroid (d : TDigest) (idx : ℕ) (mean : ℚ) : TDigest :=
  let n := d.nCentroids + 1
  let cs := d.centroids.insertIdx idx { mean := mean, count := 1, maxCount := 0, nCentroids := 0 }
  if 3 ≤ n then
    { d with nCentroids := n, centroids := cs,
             p5Centroid := n * 3 / 8, p95Centroid := n * 5 / 8 + 1 }
  else
    { d with nCentroids := n, centroids := cs }

/-- Function `add` adds a new value `val` to the digest but does not increment the
total count.  `none` models a Go run-time panic (out-of-bounds slice
index). -/
def add (d : TDigest) (val : ℚ) : Option TDigest :=
  if d.nCentroids = 0 then
    -- We haven't added any centroids.
    some (d.addCentroid 0 val)
  else if d.nCentroids = 1 then
    -- There is exactly one centroid.
    match d.centroids[0]? with
    | none => none
    | some c =>
      if c.count < d.compression then
        some { d with centroids := d.centroids.set 0 (c.inc val) }
      else if val < c.mean then
        some (d.addCentroid 0 val)
      else
        some (d.addCentroid 1 val)
  else
    match d.nearest val with
    | none => none
    | some li =>
      if li < 0 then none
      else
        let leftIdx := li.toNat
        match d.centroids[leftIdx]? with
        | none => none
        | some left0 =>
          let lr := d.hasRoomCheck leftIdx left0
          let left := lr.2
          -- the cache update of `left` is visible through the store
          let d1 : TDigest := { d with centroids := d.centroids.set leftIdx left }
          if val < left.mean then
            -- val is a new minimum.
            if lr.1 then some { d1 with centroids := d1.centroids.set leftIdx (left.inc val) }
            else some (d1.addCentroid 0 val)
          else if leftIdx = d1.centroids.length - 1 then
            -- val is a new maximum.
            if lr.1 then some { d1 with centroids := d1.centroids.set leftIdx (left.inc val) }
            else some (d1.addCentroid d1.centroids.length val)
          else
            -- val is between left and right.
            match d1.centroids[leftIdx + 1]? with
            | none => none
            | some right0 =>
              let rr := d1.hasRoomCheck (leftIdx + 1) right0
              let right := rr.2
              let d2 : TDigest := { d1 with centroids := d1.centroids.set (leftIdx + 1) right }
              match lr.1, rr.1 with
              | true, true =>
                -- flip between the two.
                if d2.appendLower then
                  some { d2 with centroids := d2.centroids.set leftIdx (left.inc val),
                                 appendLower := !d2.appendLower }
                else
                  some { d2 with centroids := d2.centroids.set (leftIdx + 1) (right.inc val),
                                 appendLower := !d2.appendLower }
              | true, false =>
                some { d2 with centroids := d2.centroids.set leftIdx (left.inc val) }
              | false, true =>
                some { d2 with centroids := d2.centroids.set (leftIdx + 1) (right.inc val) }
              | false, false =>
                some (d2.addCentroid (leftIdx + 1) val)

/-- Function `Add` adds `val` to the digest and increments the total count. -/
def Add (d : TDigest) (val : ℚ) : Option TDigest :=
  (d.add val).map fun d' => { d' with count := d'.count + 1 }

/-- A sequence of `Add` calls, applied left to right. -/
def addAll (d : TDigest) : List ℚ → Option TDigest
  | [] => some d
  | v :: vs => (d.Add v).bind (addAll · vs)

/-- The scan of `Quantile`: Go's
`for i, c := range d.centroids { if qTotal+c.count/2 >= q { idx = i; break }; qTotal += c.count; idx = i }`,
returning the final `(idx, qTotal)` pair (entered with `i = 0`,
`qTotal = 0`). -/
def qScan (q : ℚ) : List centroid → ℚ → ℕ → ℕ × ℚ
  | [], qTotal, i => (i - 1, qTotal)
  | c :: rest, qTotal, i =>
    if q ≤ qTotal + c.count / 2 then (i, qTotal)
    else qScan q rest (qTotal + c.count) (i + 1)

/-- The interpolation part of `Quantile`, after the quantile has been
clamped and the store is known to hold `n ≥ 2` centroids. -/
def QuantileInterp (d : TDigest) (q1 : ℚ) : Option ℚ :=
  let n := d.centroids.length
  -- rescale into count units.
  let q := d.count * q1
  let s := qScan q d.centroids 0 0
  let idx := s.1
  let qTotal := s.2
  if idx = 0 then
    match d.centroids[0]?, d.centroids[1]? with
    | some c0, some c1 =>
      let slope := 2 * (c1.mean - c0.mean) / (c1.count + c0.count)
      some (c0.mean + slope * (q - c0.count / 2))
    | _, _ => none
  else if idx = n - 1 then
    match d.centroids[n - 2]?, d.centroids[n - 1]? with
    | some c0, some c1 =>
      let slope := 2 * (c1.mean - c0.mean) / (c1.count + c0.count)
      some (c1.mean + slope * (q - (qTotal - c1.count / 2)))
    | _, _ => none
  else
    match d.centroids[idx - 1]?, d.centroids[idx]? with
    | some c0, some c1 =>
      let slope := 2 * (c1.mean - c0.mean) / (c1.count + c0.count)
      some (c1.mean + slope * (q - (c1.count / 2 + qTotal)))
    | _, _ => none

/-- Function `Quantile`: `none` models the `math.NaN()` sentinel of the empty case;
out-of-range arguments are clamped to `[0, 1]`. -/
def Quantile (d : TDigest) (q : ℚ) : Option ℚ :=
  if d.centroids.length = 0 then none
  else if d.centroids.length = 1 then (d.centroids[0]?).map centroid.mean
  else QuantileInterp d (if q < 0 then 0 else if 1 < q then 1 else q)

end TDigest

open TDigest

/-- The two-centroid digest state reached by `New(1); Add(0); Add(1)`:
two unit-weight centroids with means `0` and `1`. -/
def twoCentroidDigest : TDigest :=
  { centroids := [⟨0, 1, 0, 0⟩, ⟨1, 1, 0, 0⟩],
    compression := 1, count := 2, nCentroids := 2,
    p5Centroid := 0, p95Centroid := 0, appendLower := false }

namespace TDigest

/-- The estimated quantile position of centroid `idx` as the spec words it:
(half this centroid's own weight + cumulative weight of all centroids
strictly before it) / `totalCount`.  Stated from the spec's words, for
comparison with `quantileOf`, which accumulates from the nearer end. -/
def idealQuantileOf (d : TDigest) (idx : ℕ) : ℚ :=
  ((d.centroids.getD idx default).count / 2 + sumCounts (d.centroids.take idx)) / d.count

end TDigest

/-- A digest with three unit-weight centroids (means 0, 10, 20) and
consistent bookkeeping fields. -/
def threeCentroidDigest : TDigest :=
  { centroids := [⟨0, 1, 0, 0⟩, ⟨10, 1, 0, 0⟩, ⟨20, 1, 0, 0⟩],
    compression := 1, count := 3, nCentroids := 3,
    p5Centroid := 1, p95Centroid := 2, appendLower := false }

namespace TDigest

/-- Observable content of a centroid: its `(mean, count)` pair (the cache
fields are performance state, not observable behaviour). -/
def obsC (c : centroid) : ℚ × ℚ := (c.mean, c.count)

/-- Observable content of the centroid store. -/
def obs (d : TDigest) : List (ℚ × ℚ) := d.centroids.map obsC

end TDigest

/-- The incremental weighted-average update on an observable pair:
`count += 1; mean += (value - mean) / count`. -/
def incPair (p : ℚ × ℚ) (v : ℚ) : ℚ × ℚ := (p.1 + (v - p.1) / (p.2 + 1), p.2 + 1)

/-- Mean of the centroid at index `i` (default mean 0 out of bounds). -/
def mAt (cs : List centroid) (i : ℕ) : ℚ := (cs.getD i default).mean

/-- Adjacent-pairs sortedness of the centroid means. -/
def SortedM (cs : List centroid) : Prop :=
  ∀ i, i + 1 < cs.length → mAt cs i ≤ mAt cs (i + 1)

/-- Every stored centroid carries weight at least 1. -/
def countsGE1 (cs : List centroid) : Prop := ∀ c ∈ cs, (1 : ℚ) ≤ c.count

/-- The shape of the cached percentile indices: zero until the digest holds
three centroids, then the fixed fractions recomputed by `addCentroid`. -/
def pInv (d : TDigest) : Prop :=
  (d.nCentroids ≤ 2 ∧ d.p5Centroid = 0 ∧ d.p95Centroid = 0) ∨
  (3 ≤ d.nCentroids ∧ d.p5Centroid = d.nCentroids * 3 / 8 ∧
    d.p95Centroid = d.nCentroids * 5 / 8 + 1)

/-- The state invariant maintained by the insertion engine. -/
def DigestInv (d : TDigest) : Prop :=
  d.nCentroids = d.centroids.length ∧ SortedM d.centroids ∧ pInv d ∧ countsGE1 d.centroids

/-- What `nearest` guarantees about a non-negative result `i`: a valid
index whose mean is at most `v` unless `i = 0`, and whose successor's mean
is at least `v`. -/
def NearSpec (cs : List centroid) (v : ℚ) (i : ℕ) : Prop :=
  i < cs.length ∧ (v < mAt cs i → i = 0) ∧ (i + 1 < cs.length → v ≤ mAt cs (i + 1))

/-- C1.  The quantile query is NOT monotone on the reachable state
`New(1); Add(0); Add(1)`: `Quantile(3/4) = 2` but `Quantile(1) = 3/2`,
even though `3/4 ≤ 1`.  The `idx = n-1` branch of `Quantile` reuses the
no-break accumulator formula `qTotal - c1.count/2` after a break, jumping
above the interpolation line. -/
theorem quantile_monotonicity_violated :
    addAll (New 1) [0, 1] = some twoCentroidDigest ∧
    ((3 : ℚ)/4) ≤ 1 ∧
    twoCentroidDigest.Quantile (3/4) = some 2 ∧
    twoCentroidDigest.Quantile 1 = some (3/2) ∧
    ¬ ((2 : ℚ) ≤ 3/2) := by
  refine ⟨by with_unfolding_all rfl, by norm_num, by with_unfolding_all rfl,
    by with_unfolding_all rfl, by norm_num⟩

/-- C2.  The insertion engine can fail: after `New(1); Add(5); Add(5)` the
store holds two equal-mean centroids, and the third `Add(5)` makes
`nearest` return `-1` (the `right - 1` fall-through with `right = 0`), so
Go indexes `d.centroids[-1]` and panics.  `none` marks that panic. -/
theorem add_panics_on_equal_means : addAll (New 1) [5, 5, 5] = none := by
  with_unfolding_all rfl

/-- C7.  `new(c); add(v); quantile(q)` returns exactly `v` for every
compression `c`, value `v` and quantile argument `q`: a one-centroid digest
returns its mean regardless of `q`. -/
theorem singleValue_quantile_exact (c v q : ℚ) :
    ((New c).Add v).bind (fun d => d.Quantile q) = some v := rfl

/-- C8.  `Quantile` on a freshly constructed digest returns the
not-a-number sentinel (modelled by `Option.none`, checked by `isNone`)
rather than failing. -/
theorem empty_quantile_isNaN (c q : ℚ) : ((New c).Quantile q).isNone = true := rfl

/-- C9.  Out-of-range quantile requests are clamped, not rejected: for any
digest state, `Quantile q = Quantile 0` when `q < 0` and
`Quantile q = Quantile 1` when `q > 1`. -/
theorem quantile_clamped (d : TDigest) (q : ℚ) :
    (q < 0 → d.Quantile q = d.Quantile 0) ∧ (1 < q → d.Quantile q = d.Quantile 1) := by
  constructor
  · intro h
    have hc : (if q < 0 then (0:ℚ) else if 1 < q then 1 else q) =
        (if (0:ℚ) < 0 then (0:ℚ) else if (1:ℚ) < (0:ℚ) then (1:ℚ) else (0:ℚ)) := by
      rw [if_pos h]; norm_num
    unfold Quantile
    rw [hc]
  · intro h
    have hc : (if q < 0 then (0:ℚ) else if 1 < q then 1 else q) =
        (if (1:ℚ) < 0 then (0:ℚ) else if (1:ℚ) < (1:ℚ) then (1:ℚ) else (1:ℚ)) := by
      rw [if_neg (by linarith), if_pos h]; norm_num
    unfold Quantile
    rw [hc]

/-- Witness for C9 at the concrete state `twoCentroidDigest` with the
out-of-range requests `q = -1` and `q = 2`. -/
theorem quantile_clamped_witness :
    (twoCentroidDigest.Quantile (-1) = twoCentroidDigest.Quantile 0) ∧
    (twoCentroidDigest.Quantile 2 = twoCentroidDigest.Quantile 1) :=
  ⟨(quantile_clamped twoCentroidDigest (-1)).1 (by norm_num),
   (quantile_clamped twoCentroidDigest 2).2 (by norm_num)⟩

/-- C10.  The estimator extrapolates beyond the extreme centroid means: on
the reachable two-centroid state `New(1); Add(0); Add(1)`, `Quantile(0)`
returns `-1/2`, strictly below every centroid mean (the smallest mean is
`0`). -/
theorem quantile_extrapolates_below_min :
    addAll (New 1) [0, 1] = some twoCentroidDigest ∧
    2 ≤ twoCentroidDigest.centroids.length ∧
    twoCentroidDigest.Quantile 0 = some (-(1/2)) ∧
    twoCentroidDigest.centroids.all (fun c => decide (-(1/2 : ℚ) < c.mean)) = true := by
  refine ⟨by with_unfolding_all rfl, by decide, by with_unfolding_all rfl,
    by with_unfolding_all rfl⟩

/-- Splitting the total weight of a store at a valid index. -/
theorem sumCounts_split (cs : List centroid) (idx : ℕ) (h : idx < cs.length) :
    sumCounts cs =
      sumCounts (cs.take idx) + ((cs.getD idx default).count + sumCounts (cs.drop (idx + 1))) := by
  have h2 : cs.getD idx default = cs[idx] := by
    simp [List.getD_eq_getElem?_getD, List.getElem?_eq_getElem h]
  have h1 : cs = cs.take idx ++ cs[idx] :: cs.drop (idx + 1) := by
    rw [← List.drop_eq_getElem_cons h, List.take_append_drop]
  rw [h2]
  conv_lhs => rw [h1]
  unfold sumCounts
  rw [List.map_append, List.sum_append, List.map_cons, List.sum_cons]

/-- C6.  For a consistent digest (`totalCount` = sum of all counts, nonzero),
the capacity computed by the capacity policy at any valid index equals
`4 * compression * q * (1 - q) * centroidCount` with
`q = (own weight / 2 + weight strictly before) / totalCount`; in particular
the from-the-top accumulation of `quantileOf` yields this same `q`. -/
theorem capacity_formula (d : TDigest) (idx : ℕ) (c : centroid)
    (hsum : sumCounts d.centroids = d.count)
    (h0 : d.count ≠ 0)
    (hidx : idx < d.centroids.length) :
    d.quantileOf idx = d.idealQuantileOf idx ∧
    (d.hasRoom idx c).2.maxCount =
      4 * d.compression * d.idealQuantileOf idx * (1 - d.idealQuantileOf idx) * (d.nCentroids : ℚ) := by
  have hsplit := sumCounts_split d.centroids idx hidx
  rw [hsum] at hsplit
  simp only [List.getD_eq_getElem?_getD, List.getElem?_eq_getElem hidx, Option.getD_some] at hsplit
  have hq : d.quantileOf idx = d.idealQuantileOf idx := by
    unfold TDigest.quantileOf TDigest.idealQuantileOf
    simp only [List.getD_eq_getElem?_getD, List.getElem?_eq_getElem hidx, Option.getD_some]
    split_ifs with h
    · field_simp
      linarith [hsplit]
    · rfl
  have hmc : (d.hasRoom idx c).2.maxCount =
      4 * d.compression * d.quantileOf idx * (1 - d.quantileOf idx) * (d.nCentroids : ℚ) := rfl
  exact ⟨hq, by rw [hmc, hq]⟩

/-- Witness for C6 at index 2 of `threeCentroidDigest` (the from-the-top
accumulation branch). -/
theorem capacity_formula_witness :
    threeCentroidDigest.quantileOf 2 = threeCentroidDigest.idealQuantileOf 2 ∧
    (threeCentroidDigest.hasRoom 2 ⟨20, 1, 0, 0⟩).2.maxCount =
      4 * threeCentroidDigest.compression * threeCentroidDigest.idealQuantileOf 2 *
        (1 - threeCentroidDigest.idealQuantileOf 2) * (threeCentroidDigest.nCentroids : ℚ) :=
  capacity_formula threeCentroidDigest 2 ⟨20, 1, 0, 0⟩ (by with_unfolding_all rfl)
    (by norm_num [threeCentroidDigest]) (by decide)

/-- Total weight after a functional update at a valid index. -/
theorem sumCounts_set (cs : List centroid) (i : ℕ) (c c' : centroid) (h : cs[i]? = some c) :
    sumCounts (cs.set i c') = sumCounts cs - c.count + c'.count := by
  induction cs generalizing i with
  | nil => simp at h
  | cons a as ih =>
    cases i with
    | zero =>
      simp only [List.getElem?_cons_zero, Option.some.injEq] at h
      subst h
      simp [sumCounts]
      ring
    | succ n =>
      simp only [List.getElem?_cons_succ] at h
      simp only [List.set_cons_succ, sumCounts, List.map_cons, List.sum_cons]
      have := ih n h
      unfold sumCounts at this
      rw [this]
      ring

/-- Total weight after inserting a centroid at an index within bounds. -/
theorem sumCounts_insertIdx (c : centroid) :
    ∀ (i : ℕ) (cs : List centroid), i ≤ cs.length →
      sumCounts (cs.insertIdx i c) = sumCounts cs + c.count := by
  intro i
  induction i with
  | zero =>
    intro cs _
    simp [sumCounts]
    ring
  | succ n ih =>
    intro cs h
    cases cs with
    | nil => simp at h
    | cons a as =>
      simp only [List.insertIdx_succ_cons, sumCounts, List.map_cons, List.sum_cons]
      have := ih as (by simpa using h)
      unfold sumCounts at this
      rw [this]
      ring

theorem addCentroid_centroids (d : TDigest) (i : ℕ) (m : ℚ) :
    (d.addCentroid i m).centroids = d.centroids.insertIdx i ⟨m, 1, 0, 0⟩ := by
  simp only [TDigest.addCentroid]
  split_ifs <;> rfl

theorem addCentroid_count (d : TDigest) (i : ℕ) (m : ℚ) :
    (d.addCentroid i m).count = d.count := by
  simp only [TDigest.addCentroid]
  split_ifs <;> rfl

theorem addCentroid_nCentroids (d : TDigest) (i : ℕ) (m : ℚ) :
    (d.addCentroid i m).nCentroids = d.nCentroids + 1 := by
  simp only [TDigest.addCentroid]
  split_ifs <;> rfl

theorem addCentroid_compression (d : TDigest) (i : ℕ) (m : ℚ) :
    (d.addCentroid i m).compression = d.compression := by
  simp only [TDigest.addCentroid]
  split_ifs <;> rfl

theorem addCentroid_appendLower (d : TDigest) (i : ℕ) (m : ℚ) :
    (d.addCentroid i m).appendLower = d.appendLower := by
  simp only [TDigest.addCentroid]
  split_ifs <;> rfl

theorem hasRoomCheck_snd_count (d : TDigest) (i : ℕ) (c : centroid) :
    (d.hasRoomCheck i c).2.count = c.count := by
  unfold TDigest.hasRoomCheck TDigest.hasRoom
  split_ifs <;> rfl

theorem hasRoomCheck_snd_mean (d : TDigest) (i : ℕ) (c : centroid) :
    (d.hasRoomCheck i c).2.mean = c.mean := by
  unfold TDigest.hasRoomCheck TDigest.hasRoom
  split_ifs <;> rfl

theorem inc_count (c : centroid) (v : ℚ) : (c.inc v).count = c.count + 1 := rfl

/-- Every successful `add` grows the total stored weight by exactly 1 and
leaves the `count` field unchanged (`Add` increments it afterwards). -/
theorem add_sumCounts (d : TDigest) (v : ℚ) (d' : TDigest) (h : d.add v = some d') :
    sumCounts d'.centroids = sumCounts d.centroids + 1 ∧ d'.count = d.count := by
  unfold TDigest.add at h
  split_ifs at h with h0 h1
  · cases h
    refine ⟨?_, addCentroid_count d 0 v⟩
    rw [addCentroid_centroids, sumCounts_insertIdx _ _ _ (Nat.zero_le _)]
  · -- exactly one centroid
    split at h
    · cases h
    · rename_i c hg
      have hlen : 0 < d.centroids.length := (List.getElem?_eq_some_iff.mp hg).1
      split_ifs at h with hc hv
      · cases h
        refine ⟨?_, rfl⟩
        dsimp only
        rw [sumCounts_set d.centroids 0 c _ hg, inc_count]
        ring
      · cases h
        refine ⟨?_, addCentroid_count d 0 v⟩
        rw [addCentroid_centroids, sumCounts_insertIdx _ _ _ (Nat.zero_le _)]
      · cases h
        refine ⟨?_, addCentroid_count d 1 v⟩
        rw [addCentroid_centroids, sumCounts_insertIdx _ _ _ hlen]
  · -- steady state
    split at h
    · cases h
    rename_i li hn
    split at h
    · cases h
    rename_i hneg
    dsimp only at h
    split at h
    · cases h
    rename_i left0 hg
    have hlen : li.toNat < d.centroids.length := (List.getElem?_eq_some_iff.mp hg).1
    set left := (d.hasRoomCheck li.toNat left0).2 with hleft
    set cs1 := d.centroids.set li.toNat left with hcs1
    have hcacheL : sumCounts cs1 = sumCounts d.centroids := by
      rw [hcs1, sumCounts_set d.centroids li.toNat left0 _ hg, hleft, hasRoomCheck_snd_count]
      ring
    have hget1 : cs1[li.toNat]? = some left := by
      rw [hcs1]
      exact List.getElem?_set_self hlen
    split at h
    · -- new minimum
      rename_i hvm
      split_ifs at h with hroom
      · cases h
        refine ⟨?_, rfl⟩
        dsimp only
        rw [sumCounts_set cs1 li.toNat left _ hget1, inc_count, hcacheL]
        ring
      · cases h
        refine ⟨?_, addCentroid_count _ 0 v⟩
        rw [addCentroid_centroids]
        dsimp only
        rw [sumCounts_insertIdx _ _ _ (Nat.zero_le _), hcacheL]
    rename_i hvm
    split at h
    · -- new maximum
      rename_i hlast
      split_ifs at h with hroom
      · cases h
        refine ⟨?_, rfl⟩
        dsimp only
        rw [sumCounts_set cs1 li.toNat left _ hget1, inc_count, hcacheL]
        ring
      · cases h
        refine ⟨?_, addCentroid_count _ _ v⟩
        rw [addCentroid_centroids]
        dsimp only
        rw [sumCounts_insertIdx _ _ _ le_rfl, hcacheL]
    rename_i hlast
    -- middle case
    split at h
    · cases h
    rename_i right0 hg2
    have hlen2 : li.toNat + 1 < cs1.length := (List.getElem?_eq_some_iff.mp hg2).1
    set d1 : TDigest := { d with centroids := cs1 } with hd1
    set right := (d1.hasRoomCheck (li.toNat + 1) right0).2 with hright
    set cs2 := cs1.set (li.toNat + 1) right with hcs2
    have hcacheR : sumCounts cs2 = sumCounts cs1 := by
      rw [hcs2, sumCounts_set cs1 (li.toNat + 1) right0 _ hg2, hright, hasRoomCheck_snd_count]
      ring
    have hget2 : cs2[li.toNat + 1]? = some right := by
      rw [hcs2]
      exact List.getElem?_set_self hlen2
    have hget2l : cs2[li.toNat]? = some left := by
      rw [hcs2, List.getElem?_set_ne (by omega)]
      exact hget1
    have hsum2 : sumCounts cs2 = sumCounts d.centroids := by
      rw [hcacheR, hcacheL]
    have hlencs2 : cs2.length = d.centroids.length := by
      rw [hcs2, hcs1]
      simp
    split at h
    · -- true true: toggle decides
      split_ifs at h with htog
      · cases h
        refine ⟨?_, rfl⟩
        dsimp only
        rw [sumCounts_set cs2 li.toNat left _ hget2l, inc_count, hsum2]
        ring
      · cases h
        refine ⟨?_, rfl⟩
        dsimp only
        rw [sumCounts_set cs2 (li.toNat + 1) right _ hget2, inc_count, hsum2]
        ring
    · -- true false: left absorbs
      cases h
      refine ⟨?_, rfl⟩
      dsimp only
      rw [sumCounts_set cs2 li.toNat left _ hget2l, inc_count, hsum2]
      ring
    · -- false true: right absorbs
      cases h
      refine ⟨?_, rfl⟩
      dsimp only
      rw [sumCounts_set cs2 (li.toNat + 1) right _ hget2, inc_count, hsum2]
      ring
    · -- false false: new centroid between
      cases h
      refine ⟨?_, addCentroid_count _ _ v⟩
      rw [addCentroid_centroids]
      dsimp only
      rw [sumCounts_insertIdx _ _ _ (by omega), hsum2]

/-- Weight bookkeeping for a successful sequence of `Add` calls. -/
theorem addAll_conservation :
    ∀ (vs : List ℚ) (d d' : TDigest), TDigest.addAll d vs = some d' →
      sumCounts d'.centroids = sumCounts d.centroids + vs.length ∧
      d'.count = d.count + vs.length := by
  intro vs
  induction vs with
  | nil =>
    intro d d' h
    cases h
    simp
  | cons v vs ih =>
    intro d d' h
    unfold TDigest.addAll at h
    cases hA : d.Add v with
    | none => rw [hA] at h; cases h
    | some dm =>
      rw [hA, Option.some_bind] at h
      obtain ⟨hs, hc⟩ := ih dm d' h
      unfold TDigest.Add at hA
      cases hadd : d.add v with
      | none => rw [hadd] at hA; cases hA
      | some da =>
        rw [hadd, Option.map_some'] at hA
        obtain ⟨hsum, hcnt⟩ := add_sumCounts d v da hadd
        cases hA
        dsimp only at hs hc
        constructor
        · rw [hs, hsum]
          push_cast [List.length_cons]
          ring
        · rw [hc, hcnt]
          push_cast [List.length_cons]
          ring

/-- C4.  After `N` successful `Add` calls from a fresh digest, the sum of
all centroid counts equals `N`, and the digest's `count` field
(`totalCount`) equals that same value. -/
theorem weight_conservation (c : ℚ) (vs : List ℚ) (d : TDigest)
    (h : TDigest.addAll (New c) vs = some d) :
    sumCounts d.centroids = (vs.length : ℚ) ∧ d.count = (vs.length : ℚ) := by
  obtain ⟨h1, h2⟩ := addAll_conservation vs (New c) d h
  rw [h1, h2]
  constructor <;> simp [New, sumCounts]

/-- Witness for C4 with `c = 1` and the input list `[0, 1]`. -/
theorem weight_conservation_witness :
    sumCounts twoCentroidDigest.centroids = ((([0, 1] : List ℚ).length : ℕ) : ℚ) ∧
    twoCentroidDigest.count = ((([0, 1] : List ℚ).length : ℕ) : ℚ) :=
  weight_conservation 1 [0, 1] twoCentroidDigest (by with_unfolding_all rfl)

theorem obsC_inc (c : centroid) (v : ℚ) : obsC (c.inc v) = incPair (obsC c) v := rfl

theorem obsC_hasRoomCheck (d : TDigest) (i : ℕ) (c : centroid) :
    obsC (d.hasRoomCheck i c).2 = obsC c := by
  unfold obsC
  rw [hasRoomCheck_snd_mean, hasRoomCheck_snd_count]

/-- Setting an entry to the value it already holds is the identity. -/
theorem set_same {α : Type} (cs : List α) (i : ℕ) (c : α) (h : cs[i]? = some c) :
    cs.set i c = cs := by
  apply List.ext_getElem?
  intro j
  by_cases hij : i = j
  · subst hij
    rw [List.getElem?_set_self (List.getElem?_eq_some_iff.mp h).1, h]
  · rw [List.getElem?_set_ne hij]

/-- Mapping commutes with `insertIdx`. -/
theorem map_insertIdx {α β : Type} (f : α → β) (c : α) :
    ∀ (i : ℕ) (cs : List α), (cs.insertIdx i c).map f = (cs.map f).insertIdx i (f c) := by
  intro i
  induction i with
  | zero => intro cs; simp
  | succ n ih =>
    intro cs
    cases cs with
    | nil => simp
    | cons a as => simp [ih as]

/-- Function `quantileOf` only reads the counts, the total and the centroid count. -/
theorem quantileOf_congr (d1 d2 : TDigest)
    (h1 : d1.centroids.map centroid.count = d2.centroids.map centroid.count)
    (h2 : d1.count = d2.count) (h3 : d1.nCentroids = d2.nCentroids) (idx : ℕ) :
    d1.quantileOf idx = d2.quantileOf idx := by
  have hgetD : ∀ (cs : List centroid) (j : ℕ),
      (cs.getD j default).count = (cs.map centroid.count).getD j 0 := by
    intro cs j
    rw [List.getD_eq_getElem?_getD, List.getD_eq_getElem?_getD, List.getElem?_map]
    cases cs[j]? <;> rfl
  have hsum : ∀ (cs : List centroid), sumCounts cs = (cs.map centroid.count).sum := fun _ => rfl
  have htake : ∀ (cs : List centroid) (j : ℕ),
      sumCounts (cs.take j) = ((cs.map centroid.count).take j).sum := by
    intro cs j
    rw [hsum, List.map_take]
  have hdrop : ∀ (cs : List centroid) (j : ℕ),
      sumCounts (cs.drop j) = ((cs.map centroid.count).drop j).sum := by
    intro cs j
    rw [hsum, List.map_drop]
  unfold TDigest.quantileOf
  rw [hgetD, hgetD, htake, htake, hdrop, hdrop, h1, h2, h3]

/-- Function `hasRoomCheck` only reads the counts, the total, the compression and
the centroid count. -/
theorem hasRoomCheck_congr (d1 d2 : TDigest)
    (h1 : d1.centroids.map centroid.count = d2.centroids.map centroid.count)
    (h2 : d1.count = d2.count) (h3 : d1.nCentroids = d2.nCentroids)
    (h4 : d1.compression = d2.compression) (idx : ℕ) (c : centroid) :
    d1.hasRoomCheck idx c = d2.hasRoomCheck idx c := by
  unfold TDigest.hasRoomCheck TDigest.hasRoom
  rw [quantileOf_congr d1 d2 h1 h2 h3 idx, h3, h4]

/-- C5.  The steady-state decision table for a value strictly between the
bracketing pair `(left0, right0)` found by the locator: if both have spare
capacity the value is absorbed into left or right according to
`appendLower`, which is then flipped; if only one has room that one absorbs
it; if neither has room a brand-new centroid `(v, 1)` is inserted between
them. -/
theorem steady_insert_between (d : TDigest) (v : ℚ) (kn : ℕ) (left0 right0 : centroid)
    (h2 : 2 ≤ d.nCentroids)
    (hnr : d.nearest v = some (kn : ℤ))
    (hl0 : d.centroids[kn]? = some left0)
    (hr0 : d.centroids[kn + 1]? = some right0)
    (hlm : left0.mean < v)
    (hrm : v < right0.mean) :
    ∃ d', d.add v = some d' ∧
      d'.appendLower = (if (d.hasRoomCheck kn left0).1 && (d.hasRoomCheck (kn + 1) right0).1
        then !d.appendLower else d.appendLower) ∧
      TDigest.obs d' =
        (if (d.hasRoomCheck kn left0).1 && (d.hasRoomCheck (kn + 1) right0).1 then
          (if d.appendLower then (TDigest.obs d).set kn (incPair ((TDigest.obs d).getD kn (0, 0)) v)
           else (TDigest.obs d).set (kn + 1) (incPair ((TDigest.obs d).getD (kn + 1) (0, 0)) v))
         else if (d.hasRoomCheck kn left0).1 then
          (TDigest.obs d).set kn (incPair ((TDigest.obs d).getD kn (0, 0)) v)
         else if (d.hasRoomCheck (kn + 1) right0).1 then
          (TDigest.obs d).set (kn + 1) (incPair ((TDigest.obs d).getD (kn + 1) (0, 0)) v)
         else (TDigest.obs d).insertIdx (kn + 1) (v, 1)) := by
  have hlen : kn < d.centroids.length := (List.getElem?_eq_some_iff.mp hl0).1
  have hlen1 : kn + 1 < d.centroids.length := (List.getElem?_eq_some_iff.mp hr0).1
  have hobsl : (d.centroids.map TDigest.obsC)[kn]? = some (obsC left0) := by
    rw [List.getElem?_map, hl0]
    rfl
  have hobsr : (d.centroids.map TDigest.obsC)[kn + 1]? = some (obsC right0) := by
    rw [List.getElem?_map, hr0]
    rfl
  have hgetl : (d.centroids.map TDigest.obsC).getD kn (0, 0) = obsC left0 := by
    rw [List.getD_eq_getElem?_getD, hobsl]
    rfl
  have hgetr : (d.centroids.map TDigest.obsC).getD (kn + 1) (0, 0) = obsC right0 := by
    rw [List.getD_eq_getElem?_getD, hobsr]
    rfl
  -- observable view of the cache-updating set of the left centroid
  have hobs1 : (d.centroids.set kn (d.hasRoomCheck kn left0).2).map TDigest.obsC =
      d.centroids.map TDigest.obsC := by
    rw [List.map_set, obsC_hasRoomCheck]
    exact set_same _ _ _ hobsl
  unfold TDigest.add
  rw [if_neg (by omega), if_neg (by omega), hnr]
  dsimp only
  rw [if_neg (by omega : ¬ ((kn : ℤ) < 0))]
  simp only [Int.toNat_natCast]
  rw [hl0]
  dsimp only
  rw [hasRoomCheck_snd_mean, if_neg (not_lt.mpr hlm.le)]
  simp only [List.length_set]
  rw [if_neg (by omega : ¬ (kn = d.centroids.length - 1))]
  rw [List.getElem?_set_ne (by omega : kn ≠ kn + 1), hr0]
  dsimp only
  have hcnts : (d.centroids.set kn (d.hasRoomCheck kn left0).2).map centroid.count =
      d.centroids.map centroid.count := by
    rw [List.map_set, hasRoomCheck_snd_count]
    apply set_same
    rw [List.getElem?_map, hl0]
    rfl
  have hR : ({ d with centroids := d.centroids.set kn (d.hasRoomCheck kn left0).2 } : TDigest).hasRoomCheck
      (kn + 1) right0 = d.hasRoomCheck (kn + 1) right0 :=
    hasRoomCheck_congr { d with centroids := d.centroids.set kn (d.hasRoomCheck kn left0).2 }
      d hcnts rfl rfl rfl (kn + 1) right0
  rw [hR]
  -- the observable store after the cache update of the right centroid
  have hobs2 : ((d.centroids.set kn (d.hasRoomCheck kn left0).2).set (kn + 1)
      (d.hasRoomCheck (kn + 1) right0).2).map TDigest.obsC = d.centroids.map TDigest.obsC := by
    rw [List.map_set, obsC_hasRoomCheck, hobs1]
    exact set_same _ _ _ hobsr
  cases hb1 : (d.hasRoomCheck kn left0).1 <;> cases hb2 : (d.hasRoomCheck (kn + 1) right0).1 <;>
    dsimp only
  · -- false, false: insert between
    refine ⟨_, rfl, by rw [addCentroid_appendLower]; rfl, ?_⟩
    dsimp only [TDigest.obs]
    rw [addCentroid_centroids]
    dsimp only
    rw [map_insertIdx, hobs2]
    rfl
  · -- false, true: right absorbs
    refine ⟨_, rfl, rfl, ?_⟩
    dsimp only [TDigest.obs]
    rw [List.map_set, obsC_inc, obsC_hasRoomCheck, hobs2, hgetr]
    rfl
  · -- true, false: left absorbs
    refine ⟨_, rfl, rfl, ?_⟩
    dsimp only [TDigest.obs]
    rw [List.map_set, obsC_inc, obsC_hasRoomCheck, hobs2, hgetl]
    rfl
  · -- true, true: toggle decides, then flips
    cases ha : d.appendLower
    · refine ⟨_, rfl, rfl, ?_⟩
      dsimp only [TDigest.obs]
      rw [List.map_set, obsC_inc, obsC_hasRoomCheck, hobs2, hgetr]
      rfl
    · refine ⟨_, rfl, rfl, ?_⟩
      dsimp only [TDigest.obs]
      rw [List.map_set, obsC_inc, obsC_hasRoomCheck, hobs2, hgetl]
      rfl

/-- Witness for C5 on `threeCentroidDigest` with `v = 15` falling strictly
between the centroids at indices 1 and 2. -/
theorem steady_insert_between_witness :
    ∃ d', threeCentroidDigest.add 15 = some d' ∧
      d'.appendLower = (if (threeCentroidDigest.hasRoomCheck 1 ⟨10, 1, 0, 0⟩).1 &&
          (threeCentroidDigest.hasRoomCheck (1 + 1) ⟨20, 1, 0, 0⟩).1
        then !threeCentroidDigest.appendLower else threeCentroidDigest.appendLower) ∧
      TDigest.obs d' =
        (if (threeCentroidDigest.hasRoomCheck 1 ⟨10, 1, 0, 0⟩).1 &&
            (threeCentroidDigest.hasRoomCheck (1 + 1) ⟨20, 1, 0, 0⟩).1 then
          (if threeCentroidDigest.appendLower then
            (TDigest.obs threeCentroidDigest).set 1
              (incPair ((TDigest.obs threeCentroidDigest).getD 1 (0, 0)) 15)
           else
            (TDigest.obs threeCentroidDigest).set (1 + 1)
              (incPair ((TDigest.obs threeCentroidDigest).getD (1 + 1) (0, 0)) 15))
         else if (threeCentroidDigest.hasRoomCheck 1 ⟨10, 1, 0, 0⟩).1 then
          (TDigest.obs threeCentroidDigest).set 1
            (incPair ((TDigest.obs threeCentroidDigest).getD 1 (0, 0)) 15)
         else if (threeCentroidDigest.hasRoomCheck (1 + 1) ⟨20, 1, 0, 0⟩).1 then
          (TDigest.obs threeCentroidDigest).set (1 + 1)
            (incPair ((TDigest.obs threeCentroidDigest).getD (1 + 1) (0, 0)) 15)
         else (TDigest.obs threeCentroidDigest).insertIdx (1 + 1) (15, 1)) :=
  steady_insert_between threeCentroidDigest 15 1 ⟨10, 1, 0, 0⟩ ⟨20, 1, 0, 0⟩
    (by decide) (by with_unfolding_all rfl) (by with_unfolding_all rfl)
    (by with_unfolding_all rfl) (by norm_num) (by norm_num)

theorem mAt_eq (cs : List centroid) (i : ℕ) (c : centroid) (h : cs[i]? = some c) :
    mAt cs i = c.mean := by
  unfold mAt
  rw [List.getD_eq_getElem?_getD, h]
  rfl

theorem mAt_eq_getElem (cs : List centroid) (i : ℕ) (h : i < cs.length) :
    mAt cs i = cs[i].mean :=
  mAt_eq cs i _ (List.getElem?_eq_getElem h)

theorem mAt_set_self (cs : List centroid) (i : ℕ) (c : centroid) (h : i < cs.length) :
    mAt (cs.set i c) i = c.mean := by
  unfold mAt
  rw [List.getD_eq_getElem?_getD, List.getElem?_set_self h]
  rfl

theorem mAt_set_ne (cs : List centroid) (i j : ℕ) (c : centroid) (h : i ≠ j) :
    mAt (cs.set i c) j = mAt cs j := by
  unfold mAt
  rw [List.getD_eq_getElem?_getD, List.getElem?_set_ne h, ← List.getD_eq_getElem?_getD]

theorem mAt_cons_succ (c : centroid) (cs : List centroid) (j : ℕ) :
    mAt (c :: cs) (j + 1) = mAt cs j := rfl

theorem mAt_cons_zero (c : centroid) (cs : List centroid) : mAt (c :: cs) 0 = c.mean := rfl

theorem mAt_drop (cs : List centroid) : ∀ (n j : ℕ), mAt (cs.drop n) j = mAt cs (n + j) := by
  induction cs with
  | nil =>
    intro n j
    rw [List.drop_nil]
    simp [mAt, List.getD_eq_getElem?_getD]
  | cons c rest ih =>
    intro n j
    cases n with
    | zero => rw [List.drop_zero, Nat.zero_add]
    | succ n' =>
      rw [List.drop_succ_cons, ih n' j, show n' + 1 + j = n' + j + 1 from by omega,
        mAt_cons_succ]

theorem sortedM_mono (cs : List centroid) (hs : SortedM cs) :
    ∀ i j, i ≤ j → j < cs.length → mAt cs i ≤ mAt cs j := by
  intro i j
  induction j with
  | zero =>
    intro hij _
    rw [Nat.le_zero.mp hij]
  | succ n ih =>
    intro hij hlen
    rcases Nat.lt_or_ge i (n + 1) with hlt | hge
    · exact le_trans (ih (by omega) (by omega)) (hs n hlen)
    · rw [show i = n + 1 from by omega]

theorem sortedM_set (cs : List centroid) (i : ℕ) (c : centroid) (hs : SortedM cs)
    (hm : 0 < i → mAt cs (i - 1) ≤ c.mean)
    (hM : i + 1 < cs.length → c.mean ≤ mAt cs (i + 1)) :
    SortedM (cs.set i c) := by
  intro j hj
  rw [List.length_set] at hj
  by_cases h1 : j + 1 = i
  · rw [mAt_set_ne cs i j c (by omega), h1, mAt_set_self cs i c (by omega)]
    have := hm (by omega)
    rw [show i - 1 = j from by omega] at this
    exact this
  by_cases h2 : j = i
  · subst h2
    rw [mAt_set_self cs j c (by omega), mAt_set_ne cs j (j + 1) c (by omega)]
    exact hM hj
  · rw [mAt_set_ne cs i j c (by omega), mAt_set_ne cs i (j + 1) c (by omega)]
    exact hs j hj

theorem mAt_insertIdx_lt (cs : List centroid) (i j : ℕ) (c : centroid)
    (hj : j < i) (hi : i ≤ cs.length) :
    mAt (cs.insertIdx i c) j = mAt cs j := by
  have hjl : j < cs.length := by omega
  have hjl' : j < (cs.insertIdx i c).length := by
    rw [List.length_insertIdx _ _ hi]
    omega
  rw [mAt_eq_getElem _ _ hjl', mAt_eq_getElem _ _ hjl,
    List.getElem_insertIdx_of_lt cs c i j hj hjl]

theorem mAt_insertIdx_self (cs : List centroid) (i : ℕ) (c : centroid) (hi : i ≤ cs.length) :
    mAt (cs.insertIdx i c) i = c.mean := by
  have hi' : i < (cs.insertIdx i c).length := by
    rw [List.length_insertIdx _ _ hi]
    omega
  rw [mAt_eq_getElem _ _ hi', List.getElem_insertIdx_self cs c i hi]

theorem mAt_insertIdx_succ (cs : List centroid) (i j : ℕ) (c : centroid)
    (hij : i ≤ j) (hj : j < cs.length) :
    mAt (cs.insertIdx i c) (j + 1) = mAt cs j := by
  have h1 : j + 1 < (cs.insertIdx i c).length := by
    rw [List.length_insertIdx _ _ (by omega)]
    omega
  obtain ⟨k, rfl⟩ : ∃ k, j = i + k := ⟨j - i, by omega⟩
  rw [mAt_eq_getElem _ _ h1, mAt_eq_getElem _ _ hj]
  exact congrArg centroid.mean (List.getElem_insertIdx_add_succ cs c i k (by omega))

theorem sortedM_insertIdx (cs : List centroid) (i : ℕ) (c : centroid) (hs : SortedM cs)
    (hi : i ≤ cs.length)
    (hm : 0 < i → mAt cs (i - 1) ≤ c.mean)
    (hM : i < cs.length → c.mean ≤ mAt cs i) :
    SortedM (cs.insertIdx i c) := by
  intro j hj
  rw [List.length_insertIdx _ _ hi] at hj
  rcases lt_trichotomy (j + 1) i with h1 | h1 | h1
  · rw [mAt_insertIdx_lt cs i j c (by omega) hi, mAt_insertIdx_lt cs i (j + 1) c h1 hi]
    exact hs j (by omega)
  · rw [mAt_insertIdx_lt cs i j c (by omega) hi, h1, mAt_insertIdx_self cs i c hi]
    have := hm (by omega)
    rw [show i - 1 = j from by omega] at this
    exact this
  · by_cases h2 : j = i
    · subst h2
      rw [mAt_insertIdx_self cs j c hi, mAt_insertIdx_succ cs j j c le_rfl (by omega)]
      exact hM (by omega)
    · obtain ⟨j', rfl⟩ : ∃ j', j = j' + 1 := ⟨j - 1, by omega⟩
      rw [mAt_insertIdx_succ cs i j' c (by omega) (by omega),
        mAt_insertIdx_succ cs i (j' + 1) c (by omega) (by omega)]
      exact hs j' (by omega)

theorem countsGE1_set (cs : List centroid) (i : ℕ) (c : centroid)
    (h : countsGE1 cs) (hc : 1 ≤ c.count) : countsGE1 (cs.set i c) := by
  intro x hx
  rcases List.mem_or_eq_of_mem_set hx with h1 | h1
  · exact h x h1
  · rw [h1]
    exact hc

theorem countsGE1_insertIdx (cs : List centroid) (i : ℕ) (c : centroid)
    (h : countsGE1 cs) (hc : 1 ≤ c.count) (hi : i ≤ cs.length) :
    countsGE1 (cs.insertIdx i c) := by
  intro x hx
  rcases (List.mem_insertIdx hi).mp hx with h1 | h1
  · rw [h1]
    exact hc
  · exact h x h1

/-- The incremental mean update lands between the old mean and the new
value (for nonnegative previous weight). -/
theorem inc_mean_between (c : centroid) (v : ℚ) (h0 : 0 ≤ c.count) :
    (c.mean ≤ v → c.mean ≤ (c.inc v).mean ∧ (c.inc v).mean ≤ v) ∧
    (v ≤ c.mean → v ≤ (c.inc v).mean ∧ (c.inc v).mean ≤ c.mean) := by
  have hpos : (0 : ℚ) < c.count + 1 := by linarith
  unfold centroid.inc
  dsimp only
  constructor
  · intro h
    have h1 : 0 ≤ (v - c.mean) / (c.count + 1) := div_nonneg (by linarith) hpos.le
    have h2 : (v - c.mean) / (c.count + 1) ≤ v - c.mean :=
      div_le_self (by linarith) (by linarith)
    constructor <;> linarith
  · intro h
    have h1 : 0 ≤ (c.mean - v) / (c.count + 1) := div_nonneg (by linarith) hpos.le
    have h2 : (c.mean - v) / (c.count + 1) ≤ c.mean - v :=
      div_le_self (by linarith) (by linarith)
    have h3 : (v - c.mean) / (c.count + 1) = -((c.mean - v) / (c.count + 1)) := by ring
    rw [h3]
    constructor <;> linarith

theorem pInv_bounds (d : TDigest) (hp : pInv d) (h1 : 1 ≤ d.nCentroids) :
    d.p5Centroid < d.nCentroids ∧ d.p95Centroid < d.nCentroids ∧
    d.p5Centroid ≤ d.p95Centroid := by
  rcases hp with ⟨h2, h5, h95⟩ | ⟨h3, h5, h95⟩ <;> refine ⟨?_, ?_, ?_⟩ <;> omega

theorem firstAbove_some_spec (v : ℚ) :
    ∀ (cs : List centroid) (i : ℕ), TDigest.firstAbove v cs = some i →
      i < cs.length ∧ v < mAt cs i ∧ ∀ j, j < i → mAt cs j ≤ v := by
  intro cs
  induction cs with
  | nil => intro i h; simp [TDigest.firstAbove] at h
  | cons c rest ih =>
    intro i h
    unfold TDigest.firstAbove at h
    split_ifs at h with hv
    · cases h
      exact ⟨by simp, hv, fun j hj => absurd hj (by omega)⟩
    · rw [Option.map_eq_some'] at h
      obtain ⟨i', h1, h2⟩ := h
      subst h2
      obtain ⟨hlen, hlt, hall⟩ := ih i' h1
      refine ⟨by simpa using hlen, by rw [mAt_cons_succ]; exact hlt, ?_⟩
      intro j hj
      cases j with
      | zero => exact not_lt.mp hv
      | succ j' =>
        rw [mAt_cons_succ]
        exact hall j' (by omega)

theorem firstAbove_none_spec (v : ℚ) :
    ∀ (cs : List centroid), TDigest.firstAbove v cs = none →
      ∀ j, j < cs.length → mAt cs j ≤ v := by
  intro cs
  induction cs with
  | nil => intro _ j hj; simp at hj
  | cons c rest ih =>
    intro h j hj
    unfold TDigest.firstAbove at h
    by_cases hv : v < c.mean
    · rw [if_pos hv] at h
      cases h
    · rw [if_neg hv] at h
      rw [Option.map_eq_none'] at h
      cases j with
      | zero => exact not_lt.mp hv
      | succ j' =>
        rw [mAt_cons_succ]
        exact ih h j' (by simpa using hj)

theorem nearLoop_spec (cs : List centroid) (v : ℚ) (hs : SortedM cs) :
    ∀ (k left right : ℕ), right - left = k → right ≤ cs.length →
    (left = 0 ∨ mAt cs left ≤ v) →
    (right = cs.length ∨ v ≤ mAt cs right ∨ (0 < right ∧ v < mAt cs (right - 1))) →
    (left < right ∨ (left = 0 ∧ right = 0)) →
    ∃ out, TDigest.nearLoop cs v left right = some out ∧
      (∀ i, out = Sum.inl i → NearSpec cs v i) ∧
      (∀ l r, out = Sum.inr (l, r) → r ≤ cs.length ∧
        (l = 0 ∨ mAt cs l ≤ v) ∧
        (r = cs.length ∨ v ≤ mAt cs r ∨ (0 < r ∧ v < mAt cs (r - 1))) ∧
        (l < r ∨ (l = 0 ∧ r = 0))) := by
  intro k
  induction k using Nat.strong_induction_on with
  | _ k ih =>
    intro left right hk hrlen hG hH hlr
    rw [TDigest.nearLoop]
    split_ifs with h32
    · dsimp only
      have hmidlen : left + (right - left) / 2 < cs.length := by omega
      rw [List.getElem?_eq_getElem hmidlen]
      dsimp only
      split_ifs with hcm
      · have hm1len : left + (right - left) / 2 + 1 < cs.length := by omega
        rw [List.getElem?_eq_getElem hm1len]
        dsimp only
        split_ifs with hcm1
        · refine ⟨_, rfl, ?_, ?_⟩
          · intro i hi
            cases hi
            refine ⟨by omega, ?_, ?_⟩
            · intro hbad
              rw [mAt_eq_getElem _ _ hmidlen] at hbad
              exact absurd hbad (not_lt.mpr hcm.le)
            · intro _
              rw [mAt_eq_getElem _ _ hm1len]
              exact hcm1.le
          · intro l r hlr'
            simp at hlr'
        · subst hk
          exact ih (right - (left + (right - left) / 2 + 1)) (by omega) _ right rfl hrlen
            (Or.inr (by rw [mAt_eq_getElem _ _ hm1len]; exact not_lt.mp hcm1)) hH
            (Or.inl (by omega))
      · have hm0len : left + (right - left) / 2 - 1 < cs.length := by omega
        rw [List.getElem?_eq_getElem hm0len]
        dsimp only
        split_ifs with hcm0
        · refine ⟨_, rfl, ?_, ?_⟩
          · intro i hi
            cases hi
            refine ⟨by omega, ?_, ?_⟩
            · intro hbad
              rw [mAt_eq_getElem _ _ hm0len] at hbad
              exact absurd hbad (not_lt.mpr hcm0.le)
            · intro _
              rw [show left + (right - left) / 2 - 1 + 1 = left + (right - left) / 2 from by omega,
                mAt_eq_getElem _ _ hmidlen]
              exact not_lt.mp hcm
          · intro l r hlr'
            simp at hlr'
        · subst hk
          exact ih (left + (right - left) / 2 - left) (by omega) left _ rfl (by omega) hG
            (Or.inr (Or.inl (by rw [mAt_eq_getElem _ _ hmidlen]; exact not_lt.mp hcm)))
            (Or.inl (by omega))
    · refine ⟨_, rfl, ?_, ?_⟩
      · intro i hi
        simp at hi
      · intro l r hlr'
        cases hlr'
        exact ⟨hrlen, hG, hH, hlr⟩

theorem nearestFrom_spec (d : TDigest) (v : ℚ) (left right : ℕ) (hs : SortedM d.centroids)
    (hrlen : right ≤ d.centroids.length)
    (hG : left = 0 ∨ mAt d.centroids left ≤ v)
    (hH : right = d.centroids.length ∨ v ≤ mAt d.centroids right ∨
      (0 < right ∧ v < mAt d.centroids (right - 1)))
    (hlr : left < right ∨ (left = 0 ∧ right = 0)) :
    ∃ z, d.nearestFrom v left right = some z ∧
      (z = -1 ∨ ∃ i : ℕ, z = (i : ℤ) ∧ NearSpec d.centroids v i) := by
  obtain ⟨out, hout, hinl, hinr⟩ :=
    nearLoop_spec d.centroids v hs (right - left) left right rfl hrlen hG hH hlr
  unfold TDigest.nearestFrom
  rw [hout]
  cases out with
  | inl i => exact ⟨i, rfl, Or.inr ⟨i, rfl, hinl i rfl⟩⟩
  | inr lr =>
    obtain ⟨l, r⟩ := lr
    dsimp only
    obtain ⟨hr, hG', hH', hlr'⟩ := hinr l r rfl
    cases hfa : TDigest.firstAbove v (d.centroids.drop (l + 1)) with
    | some i =>
      obtain ⟨hilen, hlt, hall⟩ := firstAbove_some_spec v _ i hfa
      rw [List.length_drop] at hilen
      rw [mAt_drop] at hlt
      refine ⟨(l + i : ℕ), rfl, Or.inr ⟨l + i, rfl, by omega, ?_, ?_⟩⟩
      · intro hv
        by_contra hne
        rcases Nat.eq_zero_or_pos i with hi0 | hipos
        · subst hi0
          rcases hG' with h0 | hle
          · omega
          · rw [Nat.add_zero] at hv
            linarith
        · have := hall (i - 1) (by omega)
          rw [mAt_drop, show l + 1 + (i - 1) = l + i from by omega] at this
          linarith
      · intro _
        rw [show l + i + 1 = l + 1 + i from by omega]
        exact hlt.le
    | none =>
      have hscan := firstAbove_none_spec v _ hfa
      have hscan' : ∀ t, l + 1 ≤ t → t < d.centroids.length → mAt d.centroids t ≤ v := by
        intro t h1 h2'
        have := hscan (t - (l + 1)) (by rw [List.length_drop]; omega)
        rw [mAt_drop, show l + 1 + (t - (l + 1)) = t from by omega] at this
        exact this
      rcases Nat.eq_zero_or_pos r with hr0 | hrpos
      · subst hr0
        exact ⟨-1, by norm_num, Or.inl rfl⟩
      · have hlltr : l < r := by
          rcases hlr' with hlt' | ⟨_, h0⟩
          · exact hlt'
          · omega
        refine ⟨(r : ℤ) - 1, rfl, Or.inr ⟨r - 1, by push_cast; omega, by omega, ?_, ?_⟩⟩
        · intro hv
          by_contra hne
          rcases Nat.lt_or_ge (r - 1) (l + 1) with hcase | hcase
          · have hrl : r - 1 = l := by omega
            rcases hG' with h0 | hle
            · omega
            · rw [hrl] at hv
              linarith
          · have := hscan' (r - 1) hcase (by omega)
            linarith
        · intro hlen'
          rw [show r - 1 + 1 = r from by omega] at hlen' ⊢
          rcases hH' with hre | hle | ⟨_, hlt'⟩
          · omega
          · exact hle
          · have hstep := hs (r - 1) (by omega)
            rw [show r - 1 + 1 = r from by omega] at hstep
            linarith

theorem nearest_spec (d : TDigest) (v : ℚ) (hI : DigestInv d) (h2 : 2 ≤ d.centroids.length) :
    ∃ z, d.nearest v = some z ∧
      (z = -1 ∨ ∃ i : ℕ, z = (i : ℤ) ∧ NearSpec d.centroids v i) := by
  obtain ⟨hn, hs, hp, hc⟩ := hI
  obtain ⟨hp5, hp95, hp5le⟩ := pInv_bounds d hp (by omega)
  have hp5l : d.p5Centroid < d.centroids.length := by omega
  have hp95l : d.p95Centroid < d.centroids.length := by omega
  unfold TDigest.nearest
  rw [List.getElem?_eq_getElem hp5l]
  dsimp only
  split_ifs with h5
  · rw [List.getElem?_eq_getElem hp95l]
    dsimp only
    split_ifs with h95
    · refine nearestFrom_spec d v _ _ hs (by omega)
        (Or.inr (by rw [mAt_eq_getElem _ _ hp5l]; exact h5.le)) ?_ (Or.inl (by omega))
      refine Or.inr (Or.inr ⟨by omega, ?_⟩)
      rw [show d.p95Centroid + 1 - 1 = d.p95Centroid from by omega, mAt_eq_getElem _ _ hp95l]
      exact h95
    · exact nearestFrom_spec d v _ _ hs (by omega)
        (Or.inr (by rw [mAt_eq_getElem _ _ hp5l]; exact h5.le)) (Or.inl hn) (Or.inl (by omega))
  · refine nearestFrom_spec d v 0 d.p5Centroid hs (by omega) (Or.inl rfl)
      (Or.inr (Or.inl (by rw [mAt_eq_getElem _ _ hp5l]; exact not_lt.mp h5))) ?_
    rcases Nat.eq_zero_or_pos d.p5Centroid with h | h
    · exact Or.inr ⟨rfl, h⟩
    · exact Or.inl h

theorem addCentroid_DigestInv (d : TDigest) (i : ℕ) (v : ℚ) (hI : DigestInv d)
    (hi : i ≤ d.centroids.length)
    (hm : 0 < i → mAt d.centroids (i - 1) ≤ v)
    (hM : i < d.centroids.length → v ≤ mAt d.centroids i) :
    DigestInv (d.addCentroid i v) := by
  obtain ⟨hn, hs, hp, hc⟩ := hI
  have hlen : (d.addCentroid i v).centroids.length = d.centroids.length + 1 := by
    rw [addCentroid_centroids, List.length_insertIdx _ _ hi]
  have hsor : SortedM (d.addCentroid i v).centroids := by
    rw [addCentroid_centroids]
    exact sortedM_insertIdx d.centroids i _ hs hi hm hM
  have hcnt : countsGE1 (d.addCentroid i v).centroids := by
    rw [addCentroid_centroids]
    exact countsGE1_insertIdx d.centroids i _ hc (by norm_num) hi
  refine ⟨?_, hsor, ?_, hcnt⟩
  · rw [hlen, addCentroid_nCentroids, hn]
  · unfold pInv TDigest.addCentroid
    dsimp only
    split_ifs with h3
    · dsimp only
      exact Or.inr ⟨h3, rfl, rfl⟩
    · dsimp only
      rcases hp with ⟨hle, h5, h95⟩ | ⟨hge, _, _⟩
      · exact Or.inl ⟨by omega, h5, h95⟩
      · exact absurd (by omega : (3 : ℕ) ≤ d.nCentroids + 1) h3

theorem add_DigestInv (d : TDigest) (v : ℚ) (d' : TDigest) (hI : DigestInv d)
    (h : d.add v = some d') : DigestInv d' := by
  obtain ⟨hn, hs, hp, hc⟩ := hI
  unfold TDigest.add at h
  split_ifs at h with h0 h1
  · cases h
    refine addCentroid_DigestInv d 0 v ⟨hn, hs, hp, hc⟩ (by omega) (by omega) ?_
    intro hcontra
    omega
  · -- exactly one centroid
    have hlen1 : d.centroids.length = 1 := by omega
    split at h
    · cases h
    rename_i c hg
    split_ifs at h with hcc hcv
    · -- fold into the single centroid
      cases h
      refine ⟨?_, ?_, hp, ?_⟩
      · rw [List.length_set]
        exact hn
      · intro i hi
        rw [List.length_set] at hi
        omega
      · refine countsGE1_set _ _ _ hc ?_
        rw [inc_count]
        have := hc c (List.getElem?_mem hg)
        linarith
    · cases h
      refine addCentroid_DigestInv d 0 v ⟨hn, hs, hp, hc⟩ (by omega) (by omega) ?_
      intro _
      rw [mAt_eq d.centroids 0 c hg]
      exact hcv.le
    · cases h
      refine addCentroid_DigestInv d 1 v ⟨hn, hs, hp, hc⟩ (by omega) ?_ ?_
      · intro _
        rw [show (1 : ℕ) - 1 = 0 from rfl, mAt_eq d.centroids 0 c hg]
        exact not_lt.mp hcv
      · intro hcontra
        omega
  · -- steady state
    have hlen2 : 2 ≤ d.centroids.length := by omega
    obtain ⟨z, hz, hzspec⟩ := nearest_spec d v ⟨hn, hs, hp, hc⟩ hlen2
    rw [hz] at h
    dsimp only at h
    rcases hzspec with rfl | ⟨i, rfl, hilen, hispec1, hispec2⟩
    · rw [if_pos (by norm_num : (-1 : ℤ) < 0)] at h
      cases h
    rw [if_neg (by omega : ¬ ((i : ℤ) < 0))] at h
    simp only [Int.toNat_natCast] at h
    split at h
    · cases h
    rename_i left0 hg
    have hg' : d.centroids[i]? = some left0 := hg
    have hmean_left : mAt d.centroids i = left0.mean := mAt_eq _ _ _ hg'
    have hcl : 1 ≤ left0.count := hc left0 (List.getElem?_mem hg')
    set left := (d.hasRoomCheck i left0).2 with hleft
    set cs1 := d.centroids.set i left with hcs1
    have hlm : left.mean = left0.mean := by
      rw [hleft, hasRoomCheck_snd_mean]
    have hlcount : left.count = left0.count := by
      rw [hleft, hasRoomCheck_snd_count]
    have hlen_cs1 : cs1.length = d.centroids.length := by
      rw [hcs1, List.length_set]
    have hmAt_cs1 : ∀ j, mAt cs1 j = mAt d.centroids j := by
      intro j
      by_cases hij : i = j
      · subst hij
        rw [hcs1, mAt_set_self _ _ _ hilen, hlm, hmean_left]
      · rw [hcs1, mAt_set_ne _ _ _ _ hij]
    have hs1 : SortedM cs1 := by
      intro j hj
      rw [hmAt_cs1, hmAt_cs1]
      exact hs j (by rwa [hlen_cs1] at hj)
    have hc1 : countsGE1 cs1 := by
      refine countsGE1_set _ _ _ hc ?_
      rw [hlcount]
      exact hcl
    have hI1 : DigestInv { d with centroids := cs1 } :=
      ⟨by rw [hlen_cs1]; exact hn, hs1, hp, hc1⟩
    split at h
    · -- new minimum branch
      rename_i hvm
      have hi0 : i = 0 := hispec1 (by rw [hmean_left, ← hlm]; exact hvm)
      subst hi0
      split_ifs at h with hroom
      · cases h
        refine ⟨?_, ?_, hp, ?_⟩
        · rw [List.length_set, hlen_cs1]
          exact hn
        · refine sortedM_set cs1 0 (left.inc v) hs1 (by omega) ?_
          intro hlt
          have hbet := ((inc_mean_between left v (by rw [hlcount]; linarith)).2 hvm.le).2
          have h01 := hs1 0 hlt
          have h00 : mAt cs1 0 = left.mean := by
            rw [hcs1, mAt_set_self _ _ _ (by omega)]
          linarith
        · refine countsGE1_set _ _ _ hc1 ?_
          rw [inc_count, hlcount]
          linarith
      · cases h
        refine addCentroid_DigestInv { d with centroids := cs1 } 0 v hI1 (by omega) (by omega) ?_
        intro _
        show v ≤ mAt cs1 0
        rw [hcs1, mAt_set_self _ _ _ (by omega)]
        exact hvm.le
    · rename_i hvm
      have hlv : left0.mean ≤ v := by
        rw [← hlm]
        exact not_lt.mp hvm
      split at h
      · -- new maximum branch
        rename_i hlast
        split_ifs at h with hroom
        · cases h
          refine ⟨?_, ?_, hp, ?_⟩
          · rw [List.length_set, hlen_cs1]
            exact hn
          · refine sortedM_set cs1 i (left.inc v) hs1 ?_ ?_
            · intro hpos
              have hstep := hs1 (i - 1) (by rw [hlen_cs1]; omega)
              rw [show i - 1 + 1 = i from by omega] at hstep
              have hbet := ((inc_mean_between left v (by rw [hlcount]; linarith)).1
                (by rw [hlm]; exact hlv)).1
              have h00 : mAt cs1 i = left.mean := by
                rw [hcs1, mAt_set_self _ _ _ hilen]
              linarith
            · intro hlt
              exfalso
              rw [hlen_cs1] at hlast
              omega
          · refine countsGE1_set _ _ _ hc1 ?_
            rw [inc_count, hlcount]
            linarith
        · cases h
          refine addCentroid_DigestInv { d with centroids := cs1 } cs1.length v hI1 le_rfl ?_ ?_
          · intro hpos
            show mAt cs1 (cs1.length - 1) ≤ v
            rw [show cs1.length - 1 = i from by omega]
            rw [hcs1, mAt_set_self _ _ _ hilen, hlm]
            exact hlv
          · intro habs
            exact absurd habs (lt_irrefl _)
      · -- middle branch
        rename_i hlast
        have hi1len : i + 1 < d.centroids.length := by
          rw [hlen_cs1] at hlast
          omega
        have hvr : v ≤ mAt d.centroids (i + 1) := hispec2 hi1len
        split at h
        · cases h
        rename_i right0 hg2
        have hg2' : cs1[i + 1]? = some right0 := hg2
        have hmean_right : mAt cs1 (i + 1) = right0.mean := mAt_eq _ _ _ hg2'
        have hmr : right0.mean = mAt d.centroids (i + 1) := by
          rw [← hmean_right, hmAt_cs1]
        have hcr : 1 ≤ right0.count := hc1 right0 (List.getElem?_mem hg2')
        set right := (({ d with centroids := cs1 } : TDigest).hasRoomCheck (i + 1) right0).2
          with hright
        have hrm : right.mean = right0.mean := by
          rw [hright, hasRoomCheck_snd_mean]
        have hrcount : right.count = right0.count := by
          rw [hright, hasRoomCheck_snd_count]
        set cs2 := cs1.set (i + 1) right with hcs2
        have hlen_cs2 : cs2.length = d.centroids.length := by
          rw [hcs2, List.length_set, hlen_cs1]
        have hmAt_cs2 : ∀ j, mAt cs2 j = mAt cs1 j := by
          intro j
          by_cases hij : i + 1 = j
          · subst hij
            rw [hcs2, mAt_set_self _ _ _ (by rw [hlen_cs1]; omega), hrm, hmean_right]
          · rw [hcs2, mAt_set_ne _ _ _ _ hij]
        have hs2 : SortedM cs2 := by
          intro j hj
          rw [hmAt_cs2, hmAt_cs2]
          exact hs1 j (by rwa [hcs2, List.length_set] at hj)
        have hc2 : countsGE1 cs2 := by
          refine countsGE1_set _ _ _ hc1 ?_
          rw [hrcount]
          exact hcr
        have hI2 : DigestInv { d with centroids := cs2 } :=
          ⟨by rw [hlen_cs2]; exact hn, hs2, hp, hc2⟩
        have hm_i_cs2 : mAt cs2 i = left.mean := by
          rw [hmAt_cs2, hcs1, mAt_set_self _ _ _ hilen]
        have hm_i1_cs2 : mAt cs2 (i + 1) = right.mean := by
          rw [hcs2, mAt_set_self _ _ _ (by rw [hlen_cs1]; omega)]
        have hlv' : left.mean ≤ v := by rw [hlm]; exact hlv
        have hvr' : v ≤ right.mean := by rw [hrm, hmr]; exact hvr
        -- invariant after absorbing into the left centroid of the pair
        have hIncL : DigestInv { d with centroids := cs2.set i (left.inc v) } := by
          refine ⟨?_, ?_, hp, ?_⟩
          · rw [List.length_set, hlen_cs2]
            exact hn
          · refine sortedM_set cs2 i (left.inc v) hs2 ?_ ?_
            · intro hpos
              have hstep := hs2 (i - 1) (by rw [hlen_cs2]; omega)
              rw [show i - 1 + 1 = i from by omega] at hstep
              have hbet := ((inc_mean_between left v (by rw [hlcount]; linarith)).1 hlv').1
              linarith [hm_i_cs2]
            · intro _
              have hbet := ((inc_mean_between left v (by rw [hlcount]; linarith)).1 hlv').2
              linarith [hm_i1_cs2, hvr']
          · refine countsGE1_set _ _ _ hc2 ?_
            rw [inc_count, hlcount]
            linarith
        -- invariant after absorbing into the right centroid of the pair
        have hIncR : DigestInv { d with centroids := cs2.set (i + 1) (right.inc v) } := by
          refine ⟨?_, ?_, hp, ?_⟩
          · rw [List.length_set, hlen_cs2]
            exact hn
          · refine sortedM_set cs2 (i + 1) (right.inc v) hs2 ?_ ?_
            · intro _
              rw [show i + 1 - 1 = i from by omega]
              have hbet := ((inc_mean_between right v (by rw [hrcount]; linarith)).2 hvr').1
              linarith [hm_i_cs2, hlv']
            · intro hlt
              have hstep := hs2 (i + 1) hlt
              have hbet := ((inc_mean_between right v (by rw [hrcount]; linarith)).2 hvr').2
              linarith [hm_i1_cs2]
          · refine countsGE1_set _ _ _ hc2 ?_
            rw [inc_count, hrcount]
            linarith
        split at h
        · -- both have room: the toggle decides
          split_ifs at h with htog
          · cases h
            exact hIncL
          · cases h
            exact hIncR
        · cases h
          exact hIncL
        · cases h
          exact hIncR
        · -- neither has room: a new centroid strictly between
          cases h
          refine addCentroid_DigestInv { d with centroids := cs2 } (i + 1) v hI2
            (by rw [hlen_cs2]; omega) ?_ ?_
          · intro _
            show mAt cs2 (i + 1 - 1) ≤ v
            rw [show i + 1 - 1 = i from by omega, hm_i_cs2]
            exact hlv'
          · intro _
            show v ≤ mAt cs2 (i + 1)
            rw [hm_i1_cs2]
            exact hvr'

theorem Add_DigestInv (d : TDigest) (v : ℚ) (d' : TDigest) (hI : DigestInv d)
    (h : d.Add v = some d') : DigestInv d' := by
  unfold TDigest.Add at h
  cases hadd : d.add v with
  | none => rw [hadd] at h; cases h
  | some da =>
    rw [hadd, Option.map_some'] at h
    cases h
    obtain ⟨h1, h2, h3, h4⟩ := add_DigestInv d v da hI hadd
    exact ⟨h1, h2, h3, h4⟩

theorem addAll_DigestInv :
    ∀ (vs : List ℚ) (d d' : TDigest), DigestInv d → TDigest.addAll d vs = some d' →
      DigestInv d' := by
  intro vs
  induction vs with
  | nil =>
    intro d d' hI h
    cases h
    exact hI
  | cons v vs ih =>
    intro d d' hI h
    unfold TDigest.addAll at h
    cases hA : d.Add v with
    | none => rw [hA] at h; cases h
    | some dm =>
      rw [hA, Option.some_bind] at h
      exact ih dm d' (Add_DigestInv d v dm hI hA) h

theorem DigestInv_New (c : ℚ) : DigestInv (New c) := by
  refine ⟨rfl, ?_, Or.inl ⟨by show (0 : ℕ) ≤ 2; norm_num, rfl, rfl⟩, ?_⟩
  · intro i hi
    simp [New] at hi
  · intro x hx
    simp [New] at hx

/-- Adjacent-pairs sortedness gives full sortedness of the mean list. -/
theorem sortedM_sorted_map (cs : List centroid) (h : SortedM cs) :
    (cs.map centroid.mean).Sorted (· ≤ ·) := by
  rw [List.Sorted, ← List.chain'_iff_pairwise, List.chain'_iff_get]
  intro i hi
  simp only [List.length_map] at hi
  simp only [List.get_eq_getElem, List.getElem_map]
  have := h i (by omega)
  rw [mAt_eq_getElem _ _ (by omega), mAt_eq_getElem _ _ (by omega)] at this
  exact this

/-- C3.  After any successful sequence of `Add` calls starting from a fresh
digest, the centroid means form a non-decreasing sequence. -/
theorem sortedness_preserved (c : ℚ) (vs : List ℚ) (d : TDigest)
    (h : TDigest.addAll (New c) vs = some d) :
    (d.centroids.map centroid.mean).Sorted (· ≤ ·) := by
  have hI := addAll_DigestInv vs (New c) d (DigestInv_New c) h
  exact sortedM_sorted_map d.centroids hI.2.1

/-- Witness for C3 at `New(1); Add(0); Add(1)`. -/
theorem sortedness_preserved_witness :
    (twoCentroidDigest.centroids.map centroid.mean).Sorted (· ≤ ·) :=
  sortedness_preserved 1 [0, 1] twoCentroidDigest (by with_unfolding_all rfl)
